import Mathlib

/-!
A verification development for the trawl resource-configuration daemons.

The repository contains two near-identical daemon variants:
* `trawld/src/lib.rs`, modelled in namespace `Trawld`;
* `resmand/src/lib.rs`, modelled in namespace `Resmand`.

Modelling choices, shared by both variants:
* The Rust `HashMap<String, String>` resource table is modelled as an
  association list `Store := List (String × String)`; `lookupA` models
  `HashMap::get`, `insertA` models `HashMap::insert` (overwrite, key kept in
  place), `orInsertA` models `entry(k).or_insert(v)`, and `removeEntryA`
  models `HashMap::remove_entry`.
* The outcome of `get_preprocessed_file` (file read, external preprocessor
  run, UTF-8 decoding) is an external collaborator boundary; it is modelled
  by an `Option String` argument: `some text` for a successful read and
  `none` for any of its failure modes, which make the Rust function return
  `Err` before any store mutation.
* Each bus-exposed operation returns the new store paired with the number of
  `resources_changed` signals the call raises (0 or 1).  `emit_resources_changed`
  itself is best-effort in the source; the count models the raise, not the
  delivery.
* Strings are processed on their underlying character lists, so every
  definition is executable by kernel reduction.
-/

/-- The resource table: an association list model of `HashMap<String, String>`. -/
abbrev Store := List (String × String)

/-- Model of `HashMap::get`: value of the first entry with the given key. -/
def lookupA (k : String) : Store → Option String
  | [] => none
  | (k', v') :: rest => if k' = k then some v' else lookupA k rest

/-- Model of `HashMap::insert`: overwrite the value of an existing key in
place, or append a fresh entry at the end. -/
def insertA (k v : String) : Store → Store
  | [] => [(k, v)]
  | (k', v') :: rest => if k' = k then (k, v) :: rest else (k', v') :: insertA k v rest

/-- Model of `HashMap::entry(k).or_insert(v)`: insert only when absent. -/
def orInsertA (k v : String) (m : Store) : Store :=
  match lookupA k m with
  | some _ => m
  | none => insertA k v m

/-- Model of `HashMap::remove_entry`: the removed pair (if any) and the
remaining table. -/
def removeEntryA (k : String) : Store → Option (String × String) × Store
  | [] => (none, [])
  | (k', v') :: rest =>
    if k' = k then (some (k', v'), rest)
    else ((removeEntryA k rest).1, (k', v') :: (removeEntryA k rest).2)

/-- Left-biased choice on options, an explicit spelling of `Option.orElse`. -/
def optOr (a b : Option String) : Option String :=
  match a with
  | some x => some x
  | none => b

/-- Modelled from the spec: `common::trim_str` (module `common` is not under
`src/`) removes leading and trailing whitespace, exactly as Rust `str::trim`
does for ASCII whitespace; the same function models the std `str::trim`
calls inside parsing. -/
def trimChars (l : List Char) : List Char :=
  ((l.dropWhile Char.isWhitespace).reverse.dropWhile Char.isWhitespace).reverse

/-- String form of `trimChars`. -/
def trimStr (s : String) : String := ⟨trimChars s.data⟩

/-- Split a character list at newline characters; the result always has one
more segment than there are newlines. -/
def splitNL : List Char → List (List Char)
  | [] => [[]]
  | c :: rest =>
    match splitNL rest with
    | [] => [[]]
    | l :: ls => if c = '\n' then [] :: l :: ls else (c :: l) :: ls

/-- Drop a single trailing carriage return, as Rust `str::lines` does. -/
def stripCR (l : List Char) : List Char :=
  if l.getLast? = some '\r' then l.dropLast else l

/-- Model of Rust `str::lines`: split at newlines, drop the empty segment
produced by a trailing newline, and strip one trailing carriage return from
each line. -/
def rustLines (s : String) : List String :=
  let parts := splitNL s.data
  let parts := if parts.getLast? = some [] then parts.dropLast else parts
  parts.map (fun l => ⟨stripCR l⟩)

/-- Model of `str::split_once(':')`: split at the first colon, or `none`
when the line has no colon. -/
def splitFirstColon : List Char → Option (List Char × List Char)
  | [] => none
  | c :: rest =>
    if c = ':' then some ([], rest)
    else
      match splitFirstColon rest with
      | none => none
      | some (a, b) => some (c :: a, b)

/-- One line of `parse_config`: split at the first colon and trim both
sides; lines without a colon yield nothing. -/
def parseLine (line : String) : Option (String × String) :=
  match splitFirstColon line.data with
  | none => none
  | some (a, b) => some (⟨trimChars a⟩, ⟨trimChars b⟩)

/-- A character allowed in a resource key: ASCII alphanumeric or one of
`-`, `.`, `_`, as tested by both `check_valid_key` functions. -/
def validChar (c : Char) : Bool :=
  c.isAlphanum || c = '-' || c = '.' || c = '_'

/-- The surviving `(key, value)` entries of one `parse_config` call, in line
order, before they are collected into the map. -/
def lineEntries (valid : String → Bool) (config_str : String) : List (String × String) :=
  ((rustLines config_str).filterMap parseLine).filter (fun kv => valid kv.1)

/-- `parse_config`, parameterized by the key validity check of the variant:
the surviving entries are collected into a map by repeated `insert`, so a
later line with the same key overwrites an earlier one. -/
def parseWith (valid : String → Bool) (config_str : String) : Store :=
  (lineEntries valid config_str).foldl (fun m kv => insertA kv.1 kv.2 m) []

/-- The value of the last entry of the list carrying the given key, if any:
the reference reading of "the later line wins" within one parse call. -/
def lookupLast (k : String) : List (String × String) → Option String
  | [] => none
  | kv :: rest => optOr (lookupLast k rest) (if kv.1 = k then some kv.2 else none)

/-- Model of `<str>.starts_with`, on character lists: the first argument is
a prefix of the second. -/
def startsWith : List Char → List Char → Bool
  | [], _ => true
  | _ :: _, [] => false
  | a :: as, b :: bs => a = b && startsWith as bs

/-- Model of Rust `str::contains` (non-anchored substring match), on
character lists. -/
def containsSub : List Char → List Char → Bool
  | [], needle => needle.isEmpty
  | c :: rest, needle => startsWith needle (c :: rest) || containsSub rest needle

/-- Model of Rust `str::contains` on strings: `containsStr hay needle`. -/
def containsStr (hay needle : String) : Bool :=
  containsSub hay.data needle.data

/-- The line format used by `query`: `format!("{} :\t{}", key, value)`. -/
def fmtEntry (kv : String × String) : String :=
  kv.1 ++ " :\t" ++ kv.2

/-- Boolean lexicographic comparison of character lists, the order by which
`Vec<String>::sort` sorts (byte order and codepoint order agree on UTF-8). -/
def leChars : List Char → List Char → Bool
  | [], _ => true
  | _ :: _, [] => false
  | a :: as, b :: bs => if a = b then leChars as bs else decide (a < b)

/-- Boolean lexicographic order on strings. -/
def leStr (a b : String) : Bool := leChars a.data b.data

/-- Insert a string into an already sorted list of strings. -/
def insertSorted (x : String) : List String → List String
  | [] => [x]
  | y :: ys => if leStr x y then x :: y :: ys else y :: insertSorted x ys

/-- Model of `Vec<String>::sort`: sort into ascending lexicographic order,
realized as an insertion sort. -/
def sortStrings (l : List String) : List String := l.foldr insertSorted []

namespace Trawld

/-- `check_valid_key` of `trawld/src/lib.rs`: a key is valid iff it is
non-empty and all of its characters are allowed. -/
def check_valid_key (key : String) : Bool :=
  (!key.data.isEmpty) && key.data.all validChar

/-- `parse_config` of `trawld/src/lib.rs`. -/
def parse_config (config_str : String) : Store :=
  parseWith check_valid_key config_str

/-- `load_from_file` of `trawld/src/lib.rs`: on a failed read return with
the table untouched; on success insert each parsed entry only if its key is
absent. -/
def load_from_file (file : Option String) (s : Store) : Store :=
  match file with
  | none => s
  | some conf => (parse_config conf).foldl (fun m kv => orInsertA kv.1 kv.2 m) s

/-- `merge_from_file` of `trawld/src/lib.rs`: on a failed read return with
the table untouched; on success insert each parsed entry unconditionally. -/
def merge_from_file (file : Option String) (s : Store) : Store :=
  match file with
  | none => s
  | some conf => (parse_config conf).foldl (fun m kv => insertA kv.1 kv.2 m) s

/-- The bus operation `load`: `load_from_file` followed by an unconditional
`emit_resources_changed`. -/
def load (file : Option String) (s : Store) : Store × Nat :=
  (load_from_file file s, 1)

/-- The bus operation `merge`: `merge_from_file` followed by an
unconditional `emit_resources_changed`. -/
def merge (file : Option String) (s : Store) : Store × Nat :=
  (merge_from_file file s, 1)

/-- `set_resource` of `trawld/src/lib.rs`: trims key and value, but the
no-op check compares the stored value with the untrimmed `val`. -/
def set_resource (key val : String) (s : Store) : Store × Nat :=
  let key_trimmed := trimStr key
  let val_trimmed := trimStr val
  match lookupA key_trimmed s with
  | some x => if x = val then (s, 0) else (insertA key_trimmed val_trimmed s, 1)
  | none => (insertA key_trimmed val_trimmed s, 1)

/-- `add_resource` of `trawld/src/lib.rs`: trims key and value; a present
key makes the call a no-op regardless of the value. -/
def add_resource (key val : String) (s : Store) : Store × Nat :=
  let key_trimmed := trimStr key
  let val_trimmed := trimStr val
  match lookupA key_trimmed s with
  | some _ => (s, 0)
  | none => (insertA key_trimmed val_trimmed s, 1)

/-- `remove_one` of `trawld/src/lib.rs`: trim the key, remove its entry if
present, and emit exactly when an entry was removed. -/
def remove_one (key : String) (s : Store) : Store × Nat :=
  let p := removeEntryA (trimStr key) s
  match p.1 with
  | some _ => (p.2, 1)
  | none => (p.2, 0)

/-- `remove_all` of `trawld/src/lib.rs`: clear the table and emit exactly
when it was non-empty. -/
def remove_all (s : Store) : Store × Nat :=
  ([], if s.length > 0 then 1 else 0)

/-- `get_resource` of `trawld/src/lib.rs`: trim the key and return its
value, or the empty string when absent. -/
def get_resource (s : Store) (key : String) : String :=
  (lookupA (trimStr key) s).getD ""

/-- `query` of `trawld/src/lib.rs`: trim the query, keep the entries whose
key contains it, format, sort, join with newlines. -/
def query (s : Store) (q : String) : String :=
  let query_trimmed := trimStr q
  String.intercalate "\n"
    (sortStrings ((s.filter (fun kv => containsStr kv.1 query_trimmed)).map fmtEntry))

/-- The read-only `resources` property of `trawld/src/lib.rs`: a clone of
the current table. -/
def resources (s : Store) : Store := s

end Trawld

namespace Resmand

/-- `check_valid_key` of `resmand/src/lib.rs`: unlike the trawld variant it
has no emptiness test, so the empty key passes. -/
def check_valid_key (key : String) : Bool :=
  key.data.all validChar

/-- `parse_config` of `resmand/src/lib.rs`. -/
def parse_config (config_str : String) : Store :=
  parseWith check_valid_key config_str

/-- `load_from_file` of `resmand/src/lib.rs`. -/
def load_from_file (file : Option String) (s : Store) : Store :=
  match file with
  | none => s
  | some conf => (parse_config conf).foldl (fun m kv => orInsertA kv.1 kv.2 m) s

/-- `merge_from_file` of `resmand/src/lib.rs`. -/
def merge_from_file (file : Option String) (s : Store) : Store :=
  match file with
  | none => s
  | some conf => (parse_config conf).foldl (fun m kv => insertA kv.1 kv.2 m) s

/-- The bus operation `load` of resmand: unconditional emit after
`load_from_file`. -/
def load (file : Option String) (s : Store) : Store × Nat :=
  (load_from_file file s, 1)

/-- The bus operation `merge` of resmand: unconditional emit after
`merge_from_file`. -/
def merge (file : Option String) (s : Store) : Store × Nat :=
  (merge_from_file file s, 1)

/-- `set_resource` of `resmand/src/lib.rs`: no trimming at all. -/
def set_resource (key val : String) (s : Store) : Store × Nat :=
  match lookupA key s with
  | some x => if x = val then (s, 0) else (insertA key val s, 1)
  | none => (insertA key val s, 1)

/-- `add_resource` of `resmand/src/lib.rs`: no trimming at all. -/
def add_resource (key val : String) (s : Store) : Store × Nat :=
  match lookupA key s with
  | some _ => (s, 0)
  | none => (insertA key val s, 1)

/-- `get_resource` of `resmand/src/lib.rs`: no trimming; the key is looked
up exactly as given. -/
def get_resource (s : Store) (key : String) : String :=
  (lookupA key s).getD ""

/-- `query` of `resmand/src/lib.rs`: no trimming of the query string. -/
def query (s : Store) (q : String) : String :=
  String.intercalate "\n"
    (sortStrings ((s.filter (fun kv => containsStr kv.1 q)).map fmtEntry))

/-- The read-only `resources` property of `resmand/src/lib.rs`. -/
def resources (s : Store) : Store := s

end Resmand

/-! ### Helper lemmas about the association-list store -/

theorem optOr_none_left (b : Option String) : optOr none b = b := rfl

theorem optOr_some (x : String) (b : Option String) : optOr (some x) b = some x := rfl

theorem optOr_none_right (a : Option String) : optOr a none = a := by
  cases a <;> rfl

theorem optOr_assoc (a b c : Option String) :
    optOr (optOr a b) c = optOr a (optOr b c) := by
  cases a <;> rfl

theorem lookupA_insertA_self (k v : String) (s : Store) :
    lookupA k (insertA k v s) = some v := by
  induction s with
  | nil => simp [insertA, lookupA]
  | cons kv rest ih =>
    obtain ⟨k', v'⟩ := kv
    by_cases h : k' = k
    · subst h; simp [insertA, lookupA]
    · simp [insertA, lookupA, h, ih]

theorem lookupA_insertA_ne {k' k : String} (h : k' ≠ k) (v : String) (s : Store) :
    lookupA k (insertA k' v s) = lookupA k s := by
  induction s with
  | nil => simp [insertA, lookupA, h]
  | cons kv rest ih =>
    obtain ⟨k'', v''⟩ := kv
    by_cases h2 : k'' = k'
    · subst h2; simp [insertA, lookupA, h]
    · by_cases h3 : k'' = k
      · subst h3; simp [insertA, lookupA, h2, h]
      · simp [insertA, lookupA, h2, h3, ih]

theorem insertA_of_absent {k : String} (v : String) {s : Store}
    (h : lookupA k s = none) : insertA k v s = s ++ [(k, v)] := by
  induction s with
  | nil => rfl
  | cons kv rest ih =>
    obtain ⟨k', v'⟩ := kv
    by_cases h2 : k' = k
    · subst h2; simp [lookupA] at h
    · simp [lookupA, h2] at h
      simp [insertA, h2, ih h]

theorem insertA_of_lookup_eq {k v : String} {s : Store}
    (h : lookupA k s = some v) : insertA k v s = s := by
  induction s with
  | nil => simp [lookupA] at h
  | cons kv rest ih =>
    obtain ⟨k', v'⟩ := kv
    by_cases h2 : k' = k
    · subst h2
      simp [lookupA] at h
      simp [insertA, h]
    · simp [lookupA, h2] at h
      simp [insertA, h2, ih h]

theorem insertA_ne_of_absent {k : String} (v : String) {s : Store}
    (h : lookupA k s = none) : insertA k v s ≠ s := by
  intro heq
  have hlen : (insertA k v s).length = s.length := by rw [heq]
  rw [insertA_of_absent v h] at hlen
  simp at hlen

theorem insertA_ne_of_lookup_ne {k v x : String} {s : Store}
    (h : lookupA k s = some x) (hne : x ≠ v) : insertA k v s ≠ s := by
  intro heq
  have : lookupA k (insertA k v s) = lookupA k s := by rw [heq]
  rw [lookupA_insertA_self, h] at this
  exact hne (Option.some.inj this).symm

theorem removeEntryA_none {k : String} {s : Store}
    (h : (removeEntryA k s).1 = none) : (removeEntryA k s).2 = s := by
  induction s with
  | nil => rfl
  | cons kv rest ih =>
    obtain ⟨k', v'⟩ := kv
    by_cases h2 : k' = k
    · subst h2; simp [removeEntryA] at h
    · simp [removeEntryA, h2] at h ⊢
      exact ih h

theorem removeEntryA_some_length {k : String} {s : Store} {p : String × String}
    (h : (removeEntryA k s).1 = some p) : (removeEntryA k s).2.length + 1 = s.length := by
  induction s with
  | nil => simp [removeEntryA] at h
  | cons kv rest ih =>
    obtain ⟨k', v'⟩ := kv
    by_cases h2 : k' = k
    · subst h2; simp [removeEntryA]
    · simp [removeEntryA, h2] at h ⊢
      exact ih h

theorem lookupA_foldl_orInsertA (l : List (String × String)) (s : Store) (k : String) :
    lookupA k (l.foldl (fun m kv => orInsertA kv.1 kv.2 m) s)
      = optOr (lookupA k s) (lookupA k l) := by
  induction l generalizing s with
  | nil => simp [lookupA, optOr_none_right]
  | cons kv rest ih =>
    obtain ⟨k', v'⟩ := kv
    simp only [List.foldl_cons]
    rw [ih]
    by_cases h : k' = k
    · subst h
      cases hc : lookupA k' s with
      | some x => simp [orInsertA, hc, lookupA, optOr]
      | none => simp [orInsertA, hc, lookupA, optOr, lookupA_insertA_self]
    · have hstep : lookupA k (orInsertA k' v' s) = lookupA k s := by
        unfold orInsertA
        cases lookupA k' s with
        | some _ => rfl
        | none => exact lookupA_insertA_ne h v' s
      rw [hstep]
      simp [lookupA, h]

theorem lookupA_foldl_insertA (l : List (String × String)) (s : Store) (k : String) :
    lookupA k (l.foldl (fun m kv => insertA kv.1 kv.2 m) s)
      = optOr (lookupLast k l) (lookupA k s) := by
  induction l generalizing s with
  | nil => simp [lookupLast, optOr]
  | cons kv rest ih =>
    obtain ⟨k', v'⟩ := kv
    simp only [List.foldl_cons]
    rw [ih]
    have hstep : lookupA k (insertA k' v' s)
        = optOr (if k' = k then some v' else none) (lookupA k s) := by
      by_cases h : k' = k
      · subst h; simp [lookupA_insertA_self, optOr]
      · simp [lookupA_insertA_ne h, h, optOr]
    rw [hstep, ← optOr_assoc]
    simp [lookupLast]

theorem mem_insertA {x : String × String} {k v : String} {m : Store}
    (hx : x ∈ insertA k v m) : x = (k, v) ∨ x ∈ m := by
  induction m with
  | nil => simp [insertA] at hx; exact Or.inl hx
  | cons kv rest ih =>
    obtain ⟨k', v'⟩ := kv
    by_cases h : k' = k
    · subst h
      simp [insertA] at hx
      rcases hx with h1 | h1
      · exact Or.inl (by simp [h1])
      · exact Or.inr (List.mem_cons_of_mem _ h1)
    · simp [insertA, h] at hx
      rcases hx with h1 | h1
      · exact Or.inr (by simp [h1])
      · rcases ih h1 with h2 | h2
        · exact Or.inl h2
        · exact Or.inr (List.mem_cons_of_mem _ h2)

theorem mem_foldl_insertA {x : String × String} (l : List (String × String)) (m : Store)
    (hx : x ∈ l.foldl (fun acc kv => insertA kv.1 kv.2 acc) m) : x ∈ m ∨ x ∈ l := by
  induction l generalizing m with
  | nil => exact Or.inl hx
  | cons kv rest ih =>
    simp only [List.foldl_cons] at hx
    rcases ih _ hx with h1 | h1
    · rcases mem_insertA h1 with h2 | h2
      · exact Or.inr (by simp [h2])
      · exact Or.inl h2
    · exact Or.inr (List.mem_cons_of_mem _ h1)

/-! ### Helper lemmas about substring search and line splitting -/

theorem startsWith_iff (n h : List Char) :
    startsWith n h = true ↔ ∃ t, h = n ++ t := by
  induction n generalizing h with
  | nil =>
    constructor
    · intro _; exact ⟨h, rfl⟩
    · intro _; rfl
  | cons a as ih =>
    cases h with
    | nil => simp [startsWith]
    | cons b bs =>
      simp only [startsWith, Bool.and_eq_true, decide_eq_true_eq, ih]
      constructor
      · rintro ⟨hab, t, ht⟩
        exact ⟨t, by simp [hab, ht]⟩
      · rintro ⟨t, ht⟩
        rw [List.cons_append] at ht
        injection ht with h1 h2
        exact ⟨h1.symm, t, h2⟩

theorem containsSub_iff (h n : List Char) :
    containsSub h n = true ↔ ∃ l r, h = l ++ n ++ r := by
  induction h with
  | nil =>
    constructor
    · intro hn
      have : n = [] := by
        cases n with
        | nil => rfl
        | cons c cs => simp [containsSub, List.isEmpty] at hn
      exact ⟨[], [], by simp [this]⟩
    · rintro ⟨l, r, he⟩
      have h1 := (List.append_eq_nil.mp he.symm)
      have h2 := (List.append_eq_nil.mp h1.1)
      simp [containsSub, h2.2]
  | cons c rest ih =>
    simp only [containsSub, Bool.or_eq_true, startsWith_iff, ih]
    constructor
    · rintro (⟨t, ht⟩ | ⟨l, r, hr⟩)
      · exact ⟨[], t, by simp [ht]⟩
      · exact ⟨c :: l, r, by simp [hr]⟩
    · rintro ⟨l, r, he⟩
      cases l with
      | nil => exact Or.inl ⟨r, by simpa using he⟩
      | cons x xs =>
        simp only [List.cons_append] at he
        injection he with h1 h2
        exact Or.inr ⟨xs, r, h2⟩

theorem containsSub_nil (h : List Char) : containsSub h [] = true := by
  cases h with
  | nil => rfl
  | cons c rest => simp [containsSub, startsWith]

theorem splitFirstColon_eq_none {l : List Char} (h : ':' ∉ l) :
    splitFirstColon l = none := by
  induction l with
  | nil => rfl
  | cons c rest ih =>
    have hc : ¬ c = ':' := fun hh => h (hh ▸ List.mem_cons_self c rest)
    have hrest : ':' ∉ rest := fun hh => h (List.mem_cons_of_mem c hh)
    simp [splitFirstColon, hc, ih hrest]

theorem splitFirstColon_append {a : List Char} (b : List Char) (h : ':' ∉ a) :
    splitFirstColon (a ++ ':' :: b) = some (a, b) := by
  induction a with
  | nil => simp [splitFirstColon]
  | cons c cs ih =>
    have hc : ¬ c = ':' := fun hh => h (hh ▸ List.mem_cons_self c cs)
    have hcs : ':' ∉ cs := fun hh => h (List.mem_cons_of_mem c hh)
    simp [splitFirstColon, hc, ih hcs]

/-! ### Helper lemmas about lexicographic sorting -/

theorem leChars_iff_not_lt (as bs : List Char) :
    leChars as bs = true ↔ ¬ List.lt bs as := by
  induction as generalizing bs with
  | nil =>
    constructor
    · intro _ h; cases h
    · intro _; rfl
  | cons a as ih =>
    cases bs with
    | nil =>
      constructor
      · intro h; simp [leChars] at h
      · intro h; exact ((h (List.lt.nil a as)).elim)
    | cons b bs =>
      by_cases hab : a = b
      · subst hab
        rw [leChars, if_pos rfl, ih bs]
        constructor
        · intro h hlt
          cases hlt with
          | head _ _ h1 => exact absurd h1 (lt_irrefl a)
          | tail h1 h2 h3 => exact h h3
        · intro h hlt
          exact h (List.lt.tail (lt_irrefl a) (lt_irrefl a) hlt)
      · rw [leChars, if_neg hab]
        simp only [decide_eq_true_eq]
        constructor
        · intro hlt hcon
          cases hcon with
          | head _ _ h1 => exact absurd h1 (lt_asymm hlt)
          | tail h1 h2 h3 => exact hab (le_antisymm (not_lt.mp h1) (not_lt.mp h2))
        · intro h
          rcases lt_trichotomy a b with h1 | h1 | h1
          · exact h1
          · exact absurd h1 hab
          · exact absurd (List.lt.head _ _ h1) h

theorem leStr_le (a b : String) : leStr a b = true ↔ a ≤ b := by
  have hbridge : b < a ↔ List.lt b.data a.data := by
    rw [String.lt_iff_toList_lt]
    exact ⟨fun h => (List.lt_iff_lex_lt _ _).mpr h, fun h => (List.lt_iff_lex_lt _ _).mp h⟩
  rw [← not_lt, hbridge]
  exact leChars_iff_not_lt a.data b.data

theorem insertSorted_perm (x : String) (l : List String) :
    List.Perm (insertSorted x l) (x :: l) := by
  induction l with
  | nil => exact List.Perm.refl _
  | cons y ys ih =>
    rw [insertSorted]
    by_cases hb : leStr x y = true
    · rw [if_pos hb]
    · rw [if_neg hb]
      exact (List.Perm.cons y ih).trans (List.Perm.swap x y ys)

theorem sortStrings_perm (l : List String) : List.Perm (sortStrings l) l := by
  induction l with
  | nil => exact List.Perm.refl _
  | cons x xs ih =>
    exact (insertSorted_perm x (sortStrings xs)).trans (List.Perm.cons x ih)

theorem sorted_insertSorted (x : String) (l : List String)
    (h : List.Sorted (· ≤ ·) l) : List.Sorted (· ≤ ·) (insertSorted x l) := by
  induction l with
  | nil => simp [insertSorted]
  | cons y ys ih =>
    rw [insertSorted]
    by_cases hb : leStr x y = true
    · rw [if_pos hb]
      have hxy : x ≤ y := (leStr_le x y).mp hb
      rw [List.sorted_cons]
      refine ⟨?_, h⟩
      intro b hbmem
      rcases List.mem_cons.mp hbmem with rfl | hbys
      · exact hxy
      · exact le_trans hxy ((List.sorted_cons.mp h).1 b hbys)
    · rw [if_neg hb]
      have hyx : y ≤ x := le_of_not_le (fun hxy => hb ((leStr_le x y).mpr hxy))
      obtain ⟨hy, hys⟩ := List.sorted_cons.mp h
      rw [List.sorted_cons]
      refine ⟨?_, ih hys⟩
      intro b hbmem
      have hmem2 : b ∈ x :: ys := (insertSorted_perm x ys).mem_iff.mp hbmem
      rcases List.mem_cons.mp hmem2 with rfl | hbys
      · exact hyx
      · exact hy b hbys

theorem sortStrings_sorted (l : List String) :
    List.Sorted (· ≤ ·) (sortStrings l) := by
  induction l with
  | nil => exact List.sorted_nil
  | cons x xs ih => exact sorted_insertSorted x (sortStrings xs) ih

/-! ### Claim theorems -/

/-- C2: for every store state, a load or merge whose file reading,
preprocessing, or UTF-8 decoding fails (modelled by the collaborator
outcome `none`) returns with the resource table exactly equal to its state
before the call, in both daemon variants, both at the level of the bus
operations and of the internal `load_from_file` and `merge_from_file`. -/
theorem failed_load_merge_preserve_table (s : Store) :
    (Trawld.load none s).1 = s ∧ (Trawld.merge none s).1 = s ∧
    (Resmand.load none s).1 = s ∧ (Resmand.merge none s).1 = s ∧
    Trawld.load_from_file none s = s ∧ Trawld.merge_from_file none s = s ∧
    Resmand.load_from_file none s = s ∧ Resmand.merge_from_file none s = s :=
  ⟨rfl, rfl, rfl, rfl, rfl, rfl, rfl, rfl⟩

/-- C6: for every store state and successfully read file, `load` inserts a
parsed entry only if its key is absent and never overrides a present value:
the lookup of any key after loading is the old value when present, and the
parsed value otherwise; concretely, loading a file parsing to
9 for a and 2 for b over the store mapping a to 1 keeps a at 1 and adds b. -/
theorem load_never_overrides (s : Store) (t : String) (k : String) :
    lookupA k (Trawld.load_from_file (some t) s)
      = optOr (lookupA k s) (lookupA k (Trawld.parse_config t)) ∧
    lookupA k (Resmand.load_from_file (some t) s)
      = optOr (lookupA k s) (lookupA k (Resmand.parse_config t)) ∧
    lookupA "a" (Trawld.load_from_file (some "a: 9\nb: 2") [("a", "1")]) = some "1" ∧
    lookupA "b" (Trawld.load_from_file (some "a: 9\nb: 2") [("a", "1")]) = some "2" := by
  refine ⟨?_, ?_, ?_, ?_⟩
  · exact lookupA_foldl_orInsertA (Trawld.parse_config t) s k
  · exact lookupA_foldl_orInsertA (Resmand.parse_config t) s k
  · decide
  · decide

/-- C5: for every input text, parsing splits it into lines, splits each line
at the first colon (a line without a colon is dropped), trims both sides,
drops entries with invalid keys, and when the same valid key appears on
several lines the later value wins: the lookup in the parsed map is exactly
the value of the last surviving line with that key, in both variants. -/
theorem parse_config_line_semantics (text : String) (k : String) :
    lookupA k (Trawld.parse_config text)
      = lookupLast k (lineEntries Trawld.check_valid_key text) ∧
    lookupA k (Resmand.parse_config text)
      = lookupLast k (lineEntries Resmand.check_valid_key text) ∧
    (∀ l : String, ':' ∉ l.data → parseLine l = none) ∧
    (∀ a b : List Char, ':' ∉ a →
      parseLine ⟨a ++ ':' :: b⟩ = some (⟨trimChars a⟩, ⟨trimChars b⟩)) := by
  refine ⟨?_, ?_, ?_, ?_⟩
  · rw [Trawld.parse_config, parseWith, lookupA_foldl_insertA]
    simp [lookupA, optOr_none_right]
  · rw [Resmand.parse_config, parseWith, lookupA_foldl_insertA]
    simp [lookupA, optOr_none_right]
  · intro l hl
    simp [parseLine, splitFirstColon_eq_none hl]
  · intro a b ha
    simp [parseLine, splitFirstColon_append b ha]

/-- C5 witness: on the text with two lines for the key x the later line
wins, a line without a colon is dropped, and a line with a colon splits at
it. -/
theorem parse_config_line_semantics_witness :
    lookupA "x" (Trawld.parse_config "x: 1\nx: 2") = some "2" ∧
    parseLine "nocolonhere" = none := by
  have h := parse_config_line_semantics "x: 1\nx: 2" "x"
  exact ⟨h.1.trans (by decide), h.2.2.1 "nocolonhere" (by decide)⟩

/-- C3 counterexample: in resmand, `check_valid_key` accepts the empty
string (it has no emptiness test), so the line consisting of a colon and a
value parses to an entry whose key is empty and that entry enters the store
via `load_from_file`, contradicting the claim that every key produced by
file parsing is non-empty.  The trawld variant rejects the same key. -/
theorem resmand_parse_admits_empty_key :
    Resmand.load_from_file (some ": v") [] = [("", "v")] ∧
    Resmand.check_valid_key "" = true ∧
    Trawld.check_valid_key "" = false := by
  refine ⟨by decide, rfl, rfl⟩

/-- C3 amended: every `(key, value)` pair produced by trawld file parsing
has a non-empty key all of whose characters are ASCII alphanumeric or one
of the three allowed symbols; resmand file parsing guarantees only the
character condition, and in particular may produce the empty key. -/
theorem parse_key_validity_amended (text : String) (k v : String) :
    ((k, v) ∈ Trawld.parse_config text → k ≠ "" ∧ k.data.all validChar = true) ∧
    ((k, v) ∈ Resmand.parse_config text → k.data.all validChar = true) := by
  constructor
  · intro hmem
    have hmem' : (k, v) ∈ (lineEntries Trawld.check_valid_key text).foldl
        (fun acc kv => insertA kv.1 kv.2 acc) [] := hmem
    have h1 : (k, v) ∈ lineEntries Trawld.check_valid_key text := by
      rcases mem_foldl_insertA _ _ hmem' with h | h
      · simp at h
      · exact h
    have h2 : Trawld.check_valid_key (k, v).1 = true := (List.mem_filter.mp h1).2
    simp only [Trawld.check_valid_key, Bool.and_eq_true] at h2
    obtain ⟨hne, hall⟩ := h2
    refine ⟨fun hk => ?_, hall⟩
    rw [hk] at hne
    exact absurd hne (by decide)
  · intro hmem
    have hmem' : (k, v) ∈ (lineEntries Resmand.check_valid_key text).foldl
        (fun acc kv => insertA kv.1 kv.2 acc) [] := hmem
    have h1 : (k, v) ∈ lineEntries Resmand.check_valid_key text := by
      rcases mem_foldl_insertA _ _ hmem' with h | h
      · simp at h
      · exact h
    exact (List.mem_filter.mp h1).2

/-- C3 witness: the entry parsed from a single well-formed line has a
non-empty, character-valid key. -/
theorem parse_key_validity_amended_witness :
    "a" ≠ "" ∧ "a".data.all validChar = true := by
  have h := parse_key_validity_amended "a: 1" "a" "1"
  exact h.1 (by decide)

/-- C1 counterexample: a `load` or `merge` whose file read fails leaves the
table unchanged and still raises exactly one ChangeEvent, in both variants,
contradicting the claim that a non-changing mutation raises no event. -/
theorem failed_load_still_emits_event :
    Trawld.load none [("a", "1")] = ([("a", "1")], 1) ∧
    Resmand.load none [("a", "1")] = ([("a", "1")], 1) ∧
    Trawld.merge none [("a", "1")] = ([("a", "1")], 1) ∧
    Resmand.merge none [("a", "1")] = ([("a", "1")], 1) :=
  ⟨rfl, rfl, rfl, rfl⟩

/-- C1 amended: `load` and `merge` raise exactly one ChangeEvent on every
call, even when the read fails and the table is unchanged; `remove_one`,
`remove_all` and `add_resource` raise exactly one event if and only if they
change the table; `set_resource` raises exactly one event whenever it
changes the table and never changes the table silently, and in resmand the
event is equivalent to a change, while trawld `set_resource` may raise an
event without a change (see the C4 analysis). -/
theorem event_discipline_amended (fr : Option String) (s : Store) (k v : String) :
    (Trawld.load fr s).2 = 1 ∧ (Trawld.merge fr s).2 = 1 ∧
    (Resmand.load fr s).2 = 1 ∧ (Resmand.merge fr s).2 = 1 ∧
    ((Trawld.remove_one k s).2 = 1 ↔ (Trawld.remove_one k s).1 ≠ s) ∧
    ((Trawld.remove_all s).2 = 1 ↔ (Trawld.remove_all s).1 ≠ s) ∧
    ((Trawld.add_resource k v s).2 = 1 ↔ (Trawld.add_resource k v s).1 ≠ s) ∧
    ((Resmand.add_resource k v s).2 = 1 ↔ (Resmand.add_resource k v s).1 ≠ s) ∧
    ((Trawld.set_resource k v s).2 = 0 → (Trawld.set_resource k v s).1 = s) ∧
    ((Trawld.set_resource k v s).1 ≠ s → (Trawld.set_resource k v s).2 = 1) ∧
    ((Resmand.set_resource k v s).2 = 1 ↔ (Resmand.set_resource k v s).1 ≠ s) := by
  refine ⟨rfl, rfl, rfl, rfl, ?_, ?_, ?_, ?_, ?_, ?_, ?_⟩
  · cases hp : (removeEntryA (trimStr k) s).1 with
    | some p =>
      simp only [Trawld.remove_one, hp]
      constructor
      · intro _ heq
        have hl := removeEntryA_some_length hp
        rw [heq] at hl
        omega
      · intro _; trivial
    | none =>
      simp only [Trawld.remove_one, hp]
      simp [removeEntryA_none hp]
  · cases s with
    | nil => simp [Trawld.remove_all]
    | cons kv rest => simp [Trawld.remove_all]
  · cases hc : lookupA (trimStr k) s with
    | some x => simp [Trawld.add_resource, hc]
    | none =>
      simp only [Trawld.add_resource, hc]
      simp [insertA_ne_of_absent (trimStr v) hc]
  · cases hc : lookupA k s with
    | some x => simp [Resmand.add_resource, hc]
    | none =>
      simp only [Resmand.add_resource, hc]
      simp [insertA_ne_of_absent v hc]
  · cases hc : lookupA (trimStr k) s with
    | some x =>
      by_cases hv : x = v
      · simp [Trawld.set_resource, hc, hv]
      · simp [Trawld.set_resource, hc, hv]
    | none => simp [Trawld.set_resource, hc]
  · cases hc : lookupA (trimStr k) s with
    | some x =>
      by_cases hv : x = v
      · simp [Trawld.set_resource, hc, hv]
      · simp [Trawld.set_resource, hc, hv]
    | none => simp [Trawld.set_resource, hc]
  · cases hc : lookupA k s with
    | some x =>
      by_cases hv : x = v
      · simp [Resmand.set_resource, hc, hv]
      · simp only [Resmand.set_resource, hc, if_neg hv]
        simp [insertA_ne_of_lookup_ne hc hv]
    | none =>
      simp only [Resmand.set_resource, hc]
      simp [insertA_ne_of_absent v hc]

/-- C1 witness: the amended event discipline instantiated at a failed read
over a singleton table with a fresh key and value. -/
theorem event_discipline_amended_witness :
    (Trawld.load none [("a", "1")]).2 = 1 ∧
    (Trawld.merge none [("a", "1")]).2 = 1 ∧
    (Resmand.load none [("a", "1")]).2 = 1 ∧
    (Resmand.merge none [("a", "1")]).2 = 1 ∧
    ((Trawld.remove_one "b" [("a", "1")]).2 = 1
      ↔ (Trawld.remove_one "b" [("a", "1")]).1 ≠ [("a", "1")]) ∧
    ((Trawld.remove_all [("a", "1")]).2 = 1
      ↔ (Trawld.remove_all [("a", "1")]).1 ≠ [("a", "1")]) ∧
    ((Trawld.add_resource "b" "2" [("a", "1")]).2 = 1
      ↔ (Trawld.add_resource "b" "2" [("a", "1")]).1 ≠ [("a", "1")]) ∧
    ((Resmand.add_resource "b" "2" [("a", "1")]).2 = 1
      ↔ (Resmand.add_resource "b" "2" [("a", "1")]).1 ≠ [("a", "1")]) ∧
    ((Trawld.set_resource "b" "2" [("a", "1")]).2 = 0
      → (Trawld.set_resource "b" "2" [("a", "1")]).1 = [("a", "1")]) ∧
    ((Trawld.set_resource "b" "2" [("a", "1")]).1 ≠ [("a", "1")]
      → (Trawld.set_resource "b" "2" [("a", "1")]).2 = 1) ∧
    ((Resmand.set_resource "b" "2" [("a", "1")]).2 = 1
      ↔ (Resmand.set_resource "b" "2" [("a", "1")]).1 ≠ [("a", "1")]) :=
  event_discipline_amended none [("a", "1")] "b" "2"

/-- C4 counterexample: resmand `set_resource` stores the key exactly as
given, without trimming, so the trimmed key gains no binding; and in trawld
an immediate repetition of `set_resource` with a value carrying surrounding
whitespace raises two change events, because the no-op check compares the
stored trimmed value against the untrimmed argument. -/
theorem set_resource_trim_discipline_cex :
    (Resmand.set_resource " a " "1" []).1 = [(" a ", "1")] ∧
    lookupA "a" (Resmand.set_resource " a " "1" []).1 = none ∧
    (Trawld.set_resource "k" " x " []).2
      + (Trawld.set_resource "k" " x " ((Trawld.set_resource "k" " x " []).1)).2 = 2 := by
  refine ⟨rfl, by decide, by decide⟩

/-- C4 amended: resmand `set_resource` performs no trimming and its
immediate repetition is always a no-op raising no further event; trawld
`set_resource` trims key and value before storing but compares the stored
value with the untrimmed argument, so its repetition is a no-op exactly
when the value is unchanged by trimming, and when the trimmed key already
holds the trimmed value while the argument is untrimmed the call raises an
event without changing the table; in both variants a call finding the key
with stored value equal to the argument is a no-op with no mutation and no
event. -/
theorem set_resource_amended (s : Store) (k v : String) :
    (Resmand.set_resource k v (Resmand.set_resource k v s).1
      = ((Resmand.set_resource k v s).1, 0)) ∧
    (trimStr v = v →
      Trawld.set_resource k v (Trawld.set_resource k v s).1
        = ((Trawld.set_resource k v s).1, 0)) ∧
    (lookupA (trimStr k) s = some (trimStr v) → trimStr v ≠ v →
      Trawld.set_resource k v s = (s, 1)) ∧
    (∀ x, lookupA k s = some x → x = v → Resmand.set_resource k v s = (s, 0)) ∧
    (∀ x, lookupA (trimStr k) s = some x → x = v → Trawld.set_resource k v s = (s, 0)) := by
  refine ⟨?_, ?_, ?_, ?_, ?_⟩
  · cases hc : lookupA k s with
    | some x =>
      by_cases hv : x = v
      · simp [Resmand.set_resource, hc, hv]
      · have h2 := lookupA_insertA_self k v s
        simp [Resmand.set_resource, hc, hv, h2]
    | none =>
      have h2 := lookupA_insertA_self k v s
      simp [Resmand.set_resource, hc, h2]
  · intro hv
    cases hc : lookupA (trimStr k) s with
    | some x =>
      by_cases hxv : x = v
      · simp [Trawld.set_resource, hc, hxv]
      · have h2 := lookupA_insertA_self (trimStr k) (trimStr v) s
        rw [hv] at h2
        simp [Trawld.set_resource, hc, hxv, h2, hv]
    | none =>
      have h2 := lookupA_insertA_self (trimStr k) (trimStr v) s
      rw [hv] at h2
      simp [Trawld.set_resource, hc, h2, hv]
  · intro hc hne
    simp [Trawld.set_resource, hc, hne, insertA_of_lookup_eq hc]
  · intro x hx hxv
    simp [Resmand.set_resource, hx, hxv]
  · intro x hx hxv
    simp [Trawld.set_resource, hx, hxv]

/-- C4 witness: with an already-trimmed value, the immediate repetition of
`set_resource` raises no second event in either variant. -/
theorem set_resource_amended_witness :
    Resmand.set_resource "a" "1" (Resmand.set_resource "a" "1" []).1
      = ((Resmand.set_resource "a" "1" []).1, 0) ∧
    Trawld.set_resource "a" "1" (Trawld.set_resource "a" "1" []).1
      = ((Trawld.set_resource "a" "1" []).1, 0) := by
  have h := set_resource_amended [] "a" "1"
  exact ⟨h.1, h.2.1 (by decide)⟩

/-- C8 counterexample: in resmand, two `add_resource` calls with an
untrimmed key leave the first value under the key exactly as given, and no
binding at all under the trimmed key, contradicting the claim that the
value remains associated with the trimmed key. -/
theorem add_resource_untrimmed_key_cex :
    lookupA "a" ((Resmand.add_resource " a " "2"
      ((Resmand.add_resource " a " "1" []).1)).1) = none ∧
    (Resmand.add_resource " a " "2" ((Resmand.add_resource " a " "1" []).1)).1
      = [(" a ", "1")] := by
  refine ⟨by decide, by decide⟩

/-- C8 amended: the second of two immediate `add_resource` calls with the
same key is always a no-op raising no event, in both variants; when the key
was absent beforehand, the surviving value is the trimmed first value under
the trimmed key in trawld, and the first value as given under the key as
given in resmand. -/
theorem add_resource_amended (s : Store) (k v1 v2 : String) :
    Trawld.add_resource k v2 (Trawld.add_resource k v1 s).1
      = ((Trawld.add_resource k v1 s).1, 0) ∧
    Resmand.add_resource k v2 (Resmand.add_resource k v1 s).1
      = ((Resmand.add_resource k v1 s).1, 0) ∧
    (lookupA (trimStr k) s = none →
      lookupA (trimStr k) (Trawld.add_resource k v1 s).1 = some (trimStr v1)) ∧
    (lookupA k s = none →
      lookupA k (Resmand.add_resource k v1 s).1 = some v1) := by
  refine ⟨?_, ?_, ?_, ?_⟩
  · cases hc : lookupA (trimStr k) s with
    | some x => simp [Trawld.add_resource, hc]
    | none =>
      have h2 := lookupA_insertA_self (trimStr k) (trimStr v1) s
      simp [Trawld.add_resource, hc, h2]
  · cases hc : lookupA k s with
    | some x => simp [Resmand.add_resource, hc]
    | none =>
      have h2 := lookupA_insertA_self k v1 s
      simp [Resmand.add_resource, hc, h2]
  · intro hc
    simp [Trawld.add_resource, hc, lookupA_insertA_self]
  · intro hc
    simp [Resmand.add_resource, hc, lookupA_insertA_self]

/-- C8 witness: adding a fresh key and then adding it again with another
value is a silent no-op the second time, and the first value survives. -/
theorem add_resource_amended_witness :
    Trawld.add_resource "a" "2" (Trawld.add_resource "a" "1" []).1
      = ((Trawld.add_resource "a" "1" []).1, 0) ∧
    lookupA "a" (Trawld.add_resource "a" "1" []).1 = some "1" := by
  have h := add_resource_amended [] "a" "1" "2"
  refine ⟨h.1, ?_⟩
  have h2 := h.2.2.1 (by decide)
  have e1 : trimStr "a" = "a" := by decide
  have e2 : trimStr "1" = "1" := by decide
  rw [e1, e2] at h2
  exact h2

/-- C9 counterexample: resmand `get_resource` does not trim its key: with
the store mapping a to 1, asking for the key with surrounding spaces
returns the empty string although the trimmed key is bound. -/
theorem get_resource_no_trim_cex :
    Resmand.get_resource [("a", "1")] " a " = "" ∧
    lookupA (trimStr " a ") [("a", "1")] = some "1" := by
  refine ⟨by decide, by decide⟩

/-- C9 amended: trawld `get_resource` trims the key and returns the value
stored under the trimmed key, or the empty string when it is absent;
resmand `get_resource` looks the key up exactly as given, returning its
value or the empty string when absent; in both variants absence is not an
error, and the operation is a pure read leaving the store unchanged. -/
theorem get_resource_amended (s : Store) (k : String) :
    Trawld.get_resource s k = (lookupA (trimStr k) s).getD "" ∧
    Resmand.get_resource s k = (lookupA k s).getD "" ∧
    (lookupA (trimStr k) s = none → Trawld.get_resource s k = "") ∧
    (∀ v, lookupA (trimStr k) s = some v → Trawld.get_resource s k = v) ∧
    (lookupA k s = none → Resmand.get_resource s k = "") ∧
    (∀ v, lookupA k s = some v → Resmand.get_resource s k = v) := by
  refine ⟨rfl, rfl, ?_, ?_, ?_, ?_⟩
  · intro h; simp [Trawld.get_resource, h]
  · intro v h; simp [Trawld.get_resource, h]
  · intro h; simp [Resmand.get_resource, h]
  · intro v h; simp [Resmand.get_resource, h]

/-- C9 witness: trawld trims the looked-up key; resmand returns the value
of a key given exactly. -/
theorem get_resource_amended_witness :
    Trawld.get_resource [("a", "1")] " a " = "1" ∧
    Resmand.get_resource [("a", "1")] "a" = "1" := by
  have h := get_resource_amended [("a", "1")] " a "
  have h2 := get_resource_amended [("a", "1")] "a"
  exact ⟨h.2.2.2.1 "1" (by decide), h2.2.2.2.2.2 "1" (by decide)⟩

/-- C7: for every store state and every already-trimmed query string, both
variants agree, and `query` returns exactly the formatted lines of the
entries whose key contains the query as a non-anchored substring match,
sorted into ascending lexicographic order and joined by newlines; the empty
substring matches every key; the substring test is semantically the infix
decomposition of the key; and `query`, being a pure function of the store,
never mutates it. -/
theorem query_characterization (s : Store) (q : String) (h : trimStr q = q) :
    Trawld.query s q = Resmand.query s q ∧
    Resmand.query s q = String.intercalate "\n"
      (sortStrings ((s.filter (fun kv => containsStr kv.1 q)).map fmtEntry)) ∧
    (∀ key : String, containsStr key q = true ↔ ∃ l r, key.data = l ++ q.data ++ r) ∧
    (∀ key : String, containsStr key "" = true) ∧
    List.Sorted (· ≤ ·)
      (sortStrings ((s.filter (fun kv => containsStr kv.1 q)).map fmtEntry)) ∧
    List.Perm (sortStrings ((s.filter (fun kv => containsStr kv.1 q)).map fmtEntry))
      ((s.filter (fun kv => containsStr kv.1 q)).map fmtEntry) := by
  refine ⟨?_, rfl, ?_, ?_, ?_, ?_⟩
  · simp only [Trawld.query, Resmand.query, h]
  · intro key
    exact containsSub_iff key.data q.data
  · intro key
    exact containsSub_nil key.data
  · exact sortStrings_sorted _
  · exact sortStrings_perm _

/-- C7 witness: scenario D of the spec: with the keys alpha and beta both
containing the letter a, both variants return the two formatted lines in
sorted order. -/
theorem query_characterization_witness :
    Trawld.query [("alpha", "x"), ("beta", "y")] "a"
      = Resmand.query [("alpha", "x"), ("beta", "y")] "a" ∧
    Trawld.query [("alpha", "x"), ("beta", "y")] "a" = "alpha :\tx\nbeta :\ty" := by
  have h := query_characterization [("alpha", "x"), ("beta", "y")] "a" (by decide)
  refine ⟨h.1, ?_⟩
  rw [h.1, h.2.1]
  decide

/-- C10: reading the `resources` property returns the table as it is at the
moment of the read (the Rust code returns a clone); the read itself leaves
the store unchanged, and the value returned before a mutation is a snapshot
unaffected by the mutation: whenever the mutation changes the table, the
snapshot read earlier differs from the one read afterwards. -/
theorem resources_snapshot (s : Store) (k v : String) :
    Trawld.resources s = s ∧
    Resmand.resources s = s ∧
    Trawld.resources (Trawld.set_resource k v s).1 = (Trawld.set_resource k v s).1 ∧
    ((Trawld.set_resource k v s).1 ≠ s →
      Trawld.resources s ≠ Trawld.resources (Trawld.set_resource k v s).1) := by
  refine ⟨rfl, rfl, rfl, ?_⟩
  intro hne heq
  exact hne heq.symm

/-- C10 witness: the snapshot taken before inserting a fresh key differs
from the one taken afterwards, so the earlier returned mapping was not
altered by the mutation. -/
theorem resources_snapshot_witness :
    Trawld.resources ([] : Store) = ([] : Store) ∧
    Trawld.resources ([] : Store)
      ≠ Trawld.resources (Trawld.set_resource "a" "1" ([] : Store)).1 := by
  have h := resources_snapshot ([] : Store) "a" "1"
  exact ⟨h.1, h.2.2.2 (by decide)⟩
